import Mathlib

/-!
Verification of the Convex function-shell library.

This file gives a shallow embedding of the library module of the
repository (the module exporting `identifierToApiPath`,
`identifierToRunPath`, `createFunctionProxy`, `createProxyTree` and
`update`) and proves or refutes the frozen claims about it.

Strings are modelled as `List Char`; JavaScript `String.prototype.replace`
with a string pattern (which replaces only the first occurrence) is
modelled by `replaceFirst`, and the global regex replacement of the
slashes by `List.map`.
-/

set_option autoImplicit false

namespace ConvexShell

/-- The character list of the extension marker `.js:` used by
`identifierToApiPath` and `identifierToRunPath`. -/
def jsMarker : List Char := ['.', 'j', 's', ':']

/-- The character list of the extension marker `.ts:`. -/
def tsMarker : List Char := ['.', 't', 's', ':']

/-- If `pat` is a leading segment of `s`, return the remainder of `s`
after it; otherwise `none`.  This is the primitive used to model
JavaScript's first-occurrence string replacement. -/
def strip : List Char → List Char → Option (List Char)
  | [], s => some s
  | _ :: _, [] => none
  | p :: ps, c :: cs => if c = p then strip ps cs else none

/-- JavaScript `s.replace(pat, rep)` for a plain string pattern: replace
the first occurrence of `pat` in `s` by `rep`; if `pat` does not occur,
return `s` unchanged.  (An empty pattern inserts `rep` at the front,
exactly as in JavaScript.) -/
def replaceFirst (pat rep : List Char) : List Char → List Char
  | [] =>
    match strip pat [] with
    | some r => rep ++ r
    | none => []
  | c :: cs =>
    match strip pat (c :: cs) with
    | some r => rep ++ r
    | none => c :: replaceFirst pat rep cs

/-- Embedding of `identifierToApiPath` (source lines 103-109): replace the
first `.js:` by `.`, then the first `.ts:` by `.`, then every `/` by `.`. -/
def identifierToApiPath (identifier : List Char) : List Char :=
  (replaceFirst tsMarker ['.'] (replaceFirst jsMarker ['.'] identifier)).map
    (fun c => if c = '/' then '.' else c)

/-- Embedding of `identifierToRunPath` (source lines 113-115): replace the
first `.js:` by `:`, then the first `.ts:` by `:`. -/
def identifierToRunPath (identifier : List Char) : List Char :=
  replaceFirst tsMarker [':'] (replaceFirst jsMarker [':'] identifier)

/-- Join a list of segments with a separator character, as in
`dir/sub/file` or `dir.sub.file`. -/
def joinSep (sep : Char) : List (List Char) → List Char
  | [] => []
  | [s] => s
  | s :: s2 :: rest => s ++ sep :: joinSep sep (s2 :: rest)

/-- An identifier of the form `dir/sub/file.js:fnName`: slash-separated
segments, the `.js:` marker, then the function name. -/
def mkIdentifier (segs : List (List Char)) (fname : List Char) : List Char :=
  joinSep '/' segs ++ jsMarker ++ fname

/-- A character that may appear in a path segment or function name of a
well-formed identifier: not a dot, slash or colon. -/
def goodChar (c : Char) : Bool :=
  !(c = '.') && !(c = '/') && !(c = ':')

/-- A well-formed nonempty segment of an identifier. -/
def goodSeg (s : List Char) : Bool :=
  !s.isEmpty && s.all goodChar

/-- Recovery map used to state reversibility of `identifierToRunPath` on
well-formed identifiers: replace the first `:` of a run path by `.js:`. -/
def recoverIdentifier (runPath : List Char) : List Char :=
  replaceFirst [':'] jsMarker runPath

end ConvexShell

namespace ConvexShell

/-- Embedding of the `visibility` field of a descriptor.  At runtime the
`kind` property may be absent, so it is modelled as an `Option`; a `some`
holding the empty list models a present but falsy (empty-string) kind. -/
structure Visibility where
  kind : Option (List Char)
deriving DecidableEq, Repr

/-- Embedding of `FunctionSpec` (source lines 35-46).  The `args` and
`returns` schema fields are only consumed by the display formatters
(`formatArgType`, `formatReturnType`), which no claim mentions, so they
are not carried here.  The `visibility` field is an `Option` because the
filter in `update` guards against descriptors lacking it. -/
structure FunctionSpec where
  identifier : List Char
  functionType : List Char
  visibility : Option Visibility
deriving DecidableEq, Repr

/-- The visibility kind of a descriptor, if the `visibility` object and
its `kind` property are both present. -/
def visKind (f : FunctionSpec) : Option (List Char) :=
  f.visibility.bind Visibility.kind

/-- Truthiness of `f.visibility && f.visibility.kind` in the filter of
`update` (source line 315): the visibility object is present and its kind
is a nonempty string. -/
def kindTruthy (f : FunctionSpec) : Bool :=
  match visKind f with
  | some k => !k.isEmpty
  | none => false

/-- The list of descriptors `update` keeps (source line 315). -/
def validFunctions (l : List FunctionSpec) : List FunctionSpec :=
  l.filter kindTruthy

/-- The skipped-entry count `update` reports (source line 320). -/
def invalidCount (l : List FunctionSpec) : Nat :=
  l.length - (validFunctions l).length

/-- The literal `'public'`. -/
def pubKind : List Char := ['p', 'u', 'b', 'l', 'i', 'c']

/-- The literal `'internal'`. -/
def intKind : List Char := ['i', 'n', 't', 'e', 'r', 'n', 'a', 'l']

/-- A JavaScript value stored in the namespace tree: either a plain
object with its (insertion-ordered) string-keyed entries, or a function
proxy bound to a descriptor.  A function is itself an object, so it also
carries property entries: the insertion loop of `createProxyTree` can
attach children to a function when one descriptor's path extends
another's. -/
inductive JVal where
  | obj : List (List Char × JVal) → JVal
  | fn : FunctionSpec → List (List Char × JVal) → JVal

/-- First-match lookup in an object's entry list (JavaScript property
read). -/
def getKey : List (List Char × JVal) → List Char → Option JVal
  | [], _ => none
  | (k, v) :: rest, key => if k = key then some v else getKey rest key

/-- JavaScript property write: overwrite in place if the key exists,
otherwise append (new keys enumerate last). -/
def setKey : List (List Char × JVal) → List Char → JVal → List (List Char × JVal)
  | [], key, val => [(key, val)]
  | (k, v) :: rest, key, val =>
    if k = key then (k, val) :: rest else (k, v) :: setKey rest key val

/-- The property entries of a value (functions are objects too). -/
def JVal.children : JVal → List (List Char × JVal)
  | .obj es => es
  | .fn _ es => es

/-- Replace the property entries of a value, keeping a function's bound
descriptor. -/
def JVal.withChildren : JVal → List (List Char × JVal) → JVal
  | .obj _, es => .obj es
  | .fn s _, es => .fn s es

/-- Read property `k` of `t`. -/
def getChild (t : JVal) (k : List Char) : Option JVal :=
  getKey t.children k

/-- Write property `k` of `t`. -/
def setChild (t : JVal) (k : List Char) (v : JVal) : JVal :=
  t.withChildren (setKey t.children k v)

/-- The insertion loop of `createProxyTree` (source lines 191-202) for one
descriptor: walk every path part but the last, descending into an existing
child (truthy, be it object or function) or creating an empty object, then
bind the last part to a fresh function proxy for `f`. -/
def setPath : JVal → List (List Char) → FunctionSpec → JVal
  | t, [], _ => t
  | t, [k], f => setChild t k (.fn f [])
  | t, k :: k2 :: rest, f =>
    setChild t k (setPath ((getChild t k).getD (.obj [])) (k2 :: rest) f)

/-- JavaScript `String.prototype.split` with a single-character
separator: always returns at least one (possibly empty) piece. -/
def splitSep (sep : Char) : List Char → List (List Char)
  | [] => [[]]
  | c :: cs =>
    match splitSep sep cs with
    | [] => [[c]]
    | h :: t => if c = sep then [] :: h :: t else (c :: h) :: t

/-- The dot-separated parts of a descriptor's derived namespace path
(source lines 188-189). -/
def pathParts (f : FunctionSpec) : List (List Char) :=
  splitSep '.' (identifierToApiPath f.identifier)

/-- Insert one descriptor into the tree at its derived path. -/
def insertSpec (t : JVal) (f : FunctionSpec) : JVal :=
  setPath t (pathParts f) f

/-- Embedding of `createProxyTree` (source lines 176-206): filter the
descriptors by the requested visibility kind and insert each one in list
order into an initially empty tree.  The `Proxy` wrapper returned by the
source function is navigation-transparent; it is modelled separately by
`createProxy`/`navigatePath` below.  The write into the module-global
`functionsByPath` map is omitted: that map is never read anywhere in the
repository. -/
def createProxyTree (functions : List FunctionSpec) (visibility : List Char) : JVal :=
  (functions.filter (fun f => decide (visKind f = some visibility))).foldl
    insertSpec (.obj [])

/-- Walk a (possibly empty) segment path down the raw tree. -/
def lookupNode : JVal → List (List Char) → Option JVal
  | t, [] => some t
  | t, k :: ks =>
    match getChild t k with
    | some c => lookupNode c ks
    | none => none

/-- The descriptor bound at a value, when the value is a function leaf. -/
def leafSpecOf : JVal → Option FunctionSpec
  | .fn s _ => some s
  | .obj _ => none

/-- The descriptor bound at the end of a path, if that path reaches a
function leaf. -/
def lookupLeafSpec (t : JVal) (p : List (List Char)) : Option FunctionSpec :=
  (lookupNode t p).bind leafSpecOf

/-- Boolean initial-segment test on segment paths: `segsLe p q` holds when
`p` is a (not necessarily proper) leading piece of `q`. -/
def segsLe : List (List Char) → List (List Char) → Bool
  | [], _ => true
  | _ :: _, [] => false
  | a :: as, b :: bs => if a = b then segsLe as bs else false

end ConvexShell


namespace ConvexShell

/-- The initial module-global deployment label `'unknown'` (source line
63). -/
def unknownName : List Char := ['u', 'n', 'k', 'n', 'o', 'w', 'n']

/-- The `([^.]+)\.` tail of the deployment regex applied after the
scheme: a maximal nonempty run of non-dot characters that must be
followed by a dot.  Returns the captured run. -/
def matchHostLabel (r2 : List Char) : Option (List Char) :=
  match r2.drop (r2.takeWhile (fun c => !(c = '.'))).length with
  | '.' :: _ =>
    if (r2.takeWhile (fun c => !(c = '.'))).isEmpty then none
    else some (r2.takeWhile (fun c => !(c = '.')))
  | _ => none

/-- Try to match the regular expression `https?:\/\/([^.]+)\.` at the very
start of `s`: the literal `http`, an optional `s`, `://`, then the host
label run.  Returns the captured group. -/
def tryMatchAt (s : List Char) : Option (List Char) :=
  match strip ['h', 't', 't', 'p'] s with
  | none => none
  | some r1 =>
    let r2opt : Option (List Char) :=
      match strip ['s', ':', '/', '/'] r1 with
      | some r => some r
      | none => strip [':', '/', '/'] r1
    match r2opt with
    | none => none
    | some r2 => matchHostLabel r2

/-- JavaScript `url.match(/https?:\/\/([^.]+)\./)`: the leftmost match of
the pattern anywhere in the string, returning the captured group. -/
def jsRegexFirstMatch : List Char → Option (List Char)
  | [] => none
  | c :: cs =>
    match tryMatchAt (c :: cs) with
    | some r => some r
    | none => jsRegexFirstMatch cs

/-- The deployment-name step of `update` (source lines 307-310): if the
URL matches the pattern, the captured group becomes the label; otherwise
the module-global label keeps its previous value. -/
def updateDeploymentName (prior : List Char) (url : List Char) : List Char :=
  match jsRegexFirstMatch url with
  | some label => label
  | none => prior

/-- Embedding of `ConvexFunctionSpec` (source lines 48-51): the JSON
document emitted by the external spec command. -/
structure ConvexFunctionSpec where
  url : List Char
  functions : List FunctionSpec
deriving DecidableEq, Repr

/-- The module-global state read and written by `update`: the two proxy
trees published on `globalThis` (absent before the first successful
fetch) and the deployment label. -/
structure Globals where
  api : Option JVal
  internal : Option JVal
  deploymentName : List Char

/-- The outcome of running the external spec command and parsing its
stdout, the two effects `update` performs inside its `try` block before
any state is touched.  `execFail` models a non-zero exit of the
subprocess (`execSync` throws, carrying the captured message),
`badJson` a successful exit whose stdout `JSON.parse` rejects. -/
inductive FetchOutcome where
  | execFail : List Char → FetchOutcome
  | badJson : List Char → FetchOutcome
  | parsed : ConvexFunctionSpec → FetchOutcome

/-- Embedding of `update` (source lines 292-352).  On either failure the
`catch` block re-raises after logging, so the returned state is the prior
state unchanged; on success the deployment label is recomputed, the
descriptors lacking a usable visibility are filtered out, both trees are
rebuilt from scratch and published.  Console output and the `onUpdate`
callback are pure side effects and are not modelled. -/
def update (fetch : FetchOutcome) (g : Globals) :
    Except (List Char) (JVal × JVal × List Char) × Globals :=
  match fetch with
  | .execFail m => (.error m, g)
  | .badJson m => (.error m, g)
  | .parsed spec =>
    let newName := updateDeploymentName g.deploymentName spec.url
    let valid := validFunctions spec.functions
    let apiTree := createProxyTree valid pubKind
    let internalTree := createProxyTree valid intKind
    (.ok (apiTree, internalTree, newName),
      { api := some apiTree, internal := some internalTree, deploymentName := newName })

end ConvexShell

namespace ConvexShell

/-- A parsed JSON value, as produced by `JSON.parse`.  Numbers are kept as
their source lexeme: no claim inspects numeric values, and JavaScript's
binary floating-point conversion is out of scope. -/
inductive JsonVal where
  | null
  | bool : Bool → JsonVal
  | num : List Char → JsonVal
  | str : List Char → JsonVal
  | arr : List JsonVal → JsonVal
  | obj : List (List Char × JsonVal) → JsonVal

/-- The four insignificant whitespace characters of JSON. -/
def isJsonWs (c : Char) : Bool :=
  c = ' ' || c = '\t' || c = '\n' || c = '\r'

/-- Drop leading JSON whitespace. -/
def skipWs (s : List Char) : List Char :=
  s.dropWhile isJsonWs

/-- ASCII decimal digit test. -/
def isDigitCh (c : Char) : Bool :=
  48 ≤ c.toNat && c.toNat ≤ 57

/-- Value of a hexadecimal digit. -/
def hexVal (c : Char) : Option Nat :=
  if 48 ≤ c.toNat && c.toNat ≤ 57 then some (c.toNat - 48)
  else if 97 ≤ c.toNat && c.toNat ≤ 102 then some (c.toNat - 87)
  else if 65 ≤ c.toNat && c.toNat ≤ 70 then some (c.toNat - 55)
  else none

/-- Parse the body of a JSON string after its opening quote, returning
the decoded content and the rest of the input after the closing quote.
A `\u` escape that denotes a UTF-16 surrogate half is mapped through
`Char.ofNat`'s fallback; no claim exercises that corner. -/
def parseStringBody : Nat → List Char → Option (List Char × List Char)
  | 0, _ => none
  | _ + 1, [] => none
  | fuel + 1, c :: cs =>
    if c = '"' then some ([], cs)
    else if c = '\\' then
      match cs with
      | [] => none
      | e :: cs2 =>
        let esc : Option (Char × List Char) :=
          if e = '"' then some ('"', cs2)
          else if e = '\\' then some ('\\', cs2)
          else if e = '/' then some ('/', cs2)
          else if e = 'b' then some (Char.ofNat 8, cs2)
          else if e = 'f' then some (Char.ofNat 12, cs2)
          else if e = 'n' then some ('\n', cs2)
          else if e = 'r' then some ('\r', cs2)
          else if e = 't' then some ('\t', cs2)
          else if e = 'u' then
            match cs2 with
            | h1 :: h2 :: h3 :: h4 :: cs3 =>
              match hexVal h1, hexVal h2, hexVal h3, hexVal h4 with
              | some a, some b, some c3, some d =>
                some (Char.ofNat (a * 4096 + b * 256 + c3 * 16 + d), cs3)
              | _, _, _, _ => none
            | _ => none
          else none
        match esc with
        | some (ch, rest) =>
          match parseStringBody fuel rest with
          | some (out, r2) => some (ch :: out, r2)
          | none => none
        | none => none
    else if c.toNat < 32 then none
    else
      match parseStringBody fuel cs with
      | some (out, r2) => some (c :: out, r2)
      | none => none

/-- Optional fraction and exponent parts of a JSON number. -/
def numTail (s : List Char) : List Char × List Char :=
  let (fp, s2) : List Char × List Char :=
    match s with
    | '.' :: r =>
      let ds := r.takeWhile isDigitCh
      if ds.isEmpty then ([], s) else ('.' :: ds, r.dropWhile isDigitCh)
    | _ => ([], s)
  let (ep, s3) : List Char × List Char :=
    match s2 with
    | e :: r =>
      if e = 'e' || e = 'E' then
        let (sign, r2) : List Char × List Char :=
          match r with
          | '+' :: rr => (['+'], rr)
          | '-' :: rr => (['-'], rr)
          | _ => ([], r)
        let ds := r2.takeWhile isDigitCh
        if ds.isEmpty then ([], s2) else (e :: sign ++ ds, r2.dropWhile isDigitCh)
      else ([], s2)
    | [] => ([], s2)
  (fp ++ ep, s3)

/-- Parse a JSON number, returning its lexeme and the rest of the input.
A dot or exponent marker not followed by a digit is left unconsumed; the
caller then rejects the leftover, matching `JSON.parse`'s refusal. -/
def parseNumber (s : List Char) : Option (List Char × List Char) :=
  let negPart : List Char × List Char :=
    match s with
    | '-' :: r => (['-'], r)
    | _ => ([], s)
  match negPart.2 with
  | [] => none
  | c :: r =>
    if c = '0' then
      let (fracExp, rest) := numTail r
      some (negPart.1 ++ '0' :: fracExp, rest)
    else if isDigitCh c then
      let ds := r.takeWhile isDigitCh
      let r2 := r.dropWhile isDigitCh
      let (fracExp, rest) := numTail r2
      some (negPart.1 ++ c :: ds ++ fracExp, rest)
    else none

mutual

/-- Recursive-descent parser for a JSON value, fuelled to make the mutual
recursion structural.  Leading whitespace is skipped. -/
def parseValue : Nat → List Char → Option (JsonVal × List Char)
  | 0, _ => none
  | fuel + 1, s =>
    match skipWs s with
    | [] => none
    | c :: cs =>
      if c = '{' then
        match skipWs cs with
        | '}' :: r => some (.obj [], r)
        | r => match parseMembers fuel r with
          | some (fields, rest) => some (.obj fields, rest)
          | none => none
      else if c = '[' then
        match skipWs cs with
        | ']' :: r => some (.arr [], r)
        | r => match parseElems fuel r with
          | some (elems, rest) => some (.arr elems, rest)
          | none => none
      else if c = '"' then
        match parseStringBody (cs.length + 1) cs with
        | some (content, rest) => some (.str content, rest)
        | none => none
      else if c = 't' then
        match strip ['r', 'u', 'e'] cs with
        | some rest => some (.bool true, rest)
        | none => none
      else if c = 'f' then
        match strip ['a', 'l', 's', 'e'] cs with
        | some rest => some (.bool false, rest)
        | none => none
      else if c = 'n' then
        match strip ['u', 'l', 'l'] cs with
        | some rest => some (.null, rest)
        | none => none
      else
        match parseNumber (c :: cs) with
        | some (lex, rest) => some (.num lex, rest)
        | none => none

/-- Parse one or more `"key": value` members followed by `}`. -/
def parseMembers : Nat → List Char → Option (List (List Char × JsonVal) × List Char)
  | 0, _ => none
  | fuel + 1, s =>
    match s with
    | '"' :: cs =>
      match parseStringBody (cs.length + 1) cs with
      | some (key, r1) =>
        match skipWs r1 with
        | ':' :: r2 =>
          match parseValue fuel r2 with
          | some (v, r3) =>
            match skipWs r3 with
            | ',' :: r4 =>
              match parseMembers fuel (skipWs r4) with
              | some (fields, r5) => some ((key, v) :: fields, r5)
              | none => none
            | '}' :: r4 => some ([(key, v)], r4)
            | _ => none
          | none => none
        | _ => none
      | none => none
    | _ => none

/-- Parse one or more array elements followed by `]`. -/
def parseElems : Nat → List Char → Option (List JsonVal × List Char)
  | 0, _ => none
  | fuel + 1, s =>
    match parseValue fuel s with
    | some (v, r1) =>
      match skipWs r1 with
      | ',' :: r2 =>
        match parseElems fuel r2 with
        | some (vs, r3) => some (v :: vs, r3)
        | none => none
      | ']' :: r2 => some ([v], r2)
      | _ => none
    | none => none

end

/-- Embedding of `JSON.parse` on the captured stdout: a single JSON value
surrounded only by whitespace, or failure. -/
def jsJsonParse (s : List Char) : Option JsonVal :=
  match parseValue (s.length + 1) s with
  | some (v, rest) => if (skipWs rest).isEmpty then some v else none
  | none => none

/-- Whitespace removed by `String.prototype.trim`; the ASCII portion
suffices for this development. -/
def isTrimWs (c : Char) : Bool :=
  isJsonWs c || c = Char.ofNat 11 || c = Char.ofNat 12

/-- JavaScript `output.trim()`. -/
def jsTrim (s : List Char) : List Char :=
  ((s.dropWhile isTrimWs).reverse.dropWhile isTrimWs).reverse

/-- The value a leaf call produces on subprocess success: either a parsed
JSON document or the raw trimmed text. -/
inductive RunResult where
  | json : JsonVal → RunResult
  | text : List Char → RunResult

/-- The call behaviour of the closure built by `createFunctionProxy`
(source lines 124-152): on subprocess success, try `JSON.parse` on stdout
and fall back to the trimmed text; on subprocess failure, log and
re-raise the error. -/
def functionProxyCall (execResult : Except (List Char) (List Char)) :
    Except (List Char) RunResult :=
  match execResult with
  | .error e => .error e
  | .ok output =>
    .ok (match jsJsonParse output with
      | some v => .json v
      | none => .text (jsTrim output))

end ConvexShell

namespace ConvexShell

/-- The identity of a JavaScript object returned by navigating the proxy
tree.  Every object in a built tree is created fresh at exactly one tree
position, so a position (segment path from the root) stands for one
object reference.  A `fnRef` is a function leaf, returned by the `get`
trap without wrapping; a `proxyRef` is a memoized `Proxy` wrapper,
identified by its allocation number; a `rawRef` is a plain object reached
through a function's own properties, which the trap never wraps. -/
inductive RefId where
  | fnRef : List (List Char) → RefId
  | proxyRef : Nat → RefId
  | rawRef : List (List Char) → RefId
deriving DecidableEq, Repr

/-- The `WeakMap` proxy cache of `createProxyTree` (source line 209),
with target objects named by their tree position, plus the allocation
counter for fresh proxies. -/
structure ProxyCache where
  entries : List (List (List Char) × Nat)
  next : Nat

/-- Lookup of a target object in the cache. -/
def cacheLookup : List (List (List Char) × Nat) → List (List Char) → Option Nat
  | [], _ => none
  | (p, i) :: rest, q => if p = q then some i else cacheLookup rest q

/-- Embedding of `createProxy`/`createProxyImpl` (source lines 212-222):
return the cached proxy for a target if one exists, otherwise allocate a
fresh proxy and cache it. -/
def createProxy (c : ProxyCache) (objPath : List (List Char)) : Nat × ProxyCache :=
  match cacheLookup c.entries objPath with
  | some i => (i, c)
  | none => (c.next, ⟨(objPath, c.next) :: c.entries, c.next + 1⟩)

/-- One property-access chain through the tree, mirroring the `get` trap
(source lines 226-261): a missing property yields `undefined` (modelled
`none`) after a diagnostic; a function value is returned as-is; an object
value is wrapped via the memoizing `createProxy` when reached through a
proxy, and returned raw when reached through a function's own
properties. -/
def navAux : JVal → List (List Char) → Bool → List (List Char) → ProxyCache →
    Option RefId × ProxyCache
  | _, _, _, [], c => (none, c)
  | node, curPath, proxied, [k], c =>
    match getChild node k with
    | none => (none, c)
    | some (.fn _ _) => (some (.fnRef (curPath ++ [k])), c)
    | some (.obj _) =>
      if proxied then
        let r := createProxy c (curPath ++ [k])
        (some (.proxyRef r.1), r.2)
      else (some (.rawRef (curPath ++ [k])), c)
  | node, curPath, proxied, k :: k2 :: rest, c =>
    match getChild node k with
    | none => (none, c)
    | some (.fn f props) => navAux (.fn f props) (curPath ++ [k]) false (k2 :: rest) c
    | some (.obj es) =>
      if proxied then
        let r := createProxy c (curPath ++ [k])
        navAux (.obj es) (curPath ++ [k]) true (k2 :: rest) r.2
      else navAux (.obj es) (curPath ++ [k]) false (k2 :: rest) c

/-- Navigate a nonempty sub-path from the proxy-wrapped root of a tree,
returning the reference produced by the last property access together
with the updated proxy cache. -/
def navigatePath (t : JVal) (p : List (List Char)) (c : ProxyCache) :
    Option RefId × ProxyCache :=
  navAux t [] true p c

end ConvexShell
namespace ConvexShell

theorem strip_append (pat rest : List Char) : strip pat (pat ++ rest) = some rest := by
  induction pat with
  | nil => rfl
  | cons p ps ih => simp [strip, ih]

theorem mem_of_strip_eq_some {pat s r : List Char} (h : strip pat s = some r) :
    ∀ x ∈ pat, x ∈ s := by
  induction pat generalizing s with
  | nil => simp
  | cons p ps ih =>
    cases s with
    | nil => simp [strip] at h
    | cons c cs =>
      simp only [strip] at h
      split at h
      · next heq =>
        intro x hx
        rcases List.mem_cons.1 hx with hx | hx
        · subst hx; subst heq; exact List.mem_cons_self _ _
        · exact List.mem_cons_of_mem _ (ih h x hx)
      · exact absurd h (by simp)

theorem replaceFirst_of_not_mem {a : Char} {pat s : List Char} (rep : List Char)
    (ha : a ∈ pat) (hs : a ∉ s) : replaceFirst pat rep s = s := by
  induction s with
  | nil =>
    simp only [replaceFirst]
    cases h : strip pat [] with
    | some r => exact absurd (mem_of_strip_eq_some h a ha) (by simp)
    | none => rfl
  | cons c cs ih =>
    simp only [replaceFirst]
    cases h : strip pat (c :: cs) with
    | some r => exact absurd (mem_of_strip_eq_some h a ha) hs
    | none =>
      have : a ∉ cs := fun hc => hs (List.mem_cons_of_mem _ hc)
      rw [ih this]

theorem replaceFirst_append (pc : Char) (pat0 p : List Char) (rep rest : List Char)
    (hp : pc ∉ p) :
    replaceFirst (pc :: pat0) rep (p ++ ((pc :: pat0) ++ rest)) = p ++ (rep ++ rest) := by
  induction p with
  | nil =>
    show replaceFirst (pc :: pat0) rep (pc :: (pat0 ++ rest)) = rep ++ rest
    have h := strip_append (pc :: pat0) rest
    simp only [List.cons_append] at h
    simp only [replaceFirst, h]
  | cons c p' ih =>
    have hcp : c ≠ pc := fun h => hp (h ▸ List.mem_cons_self _ _)
    have hp' : pc ∉ p' := fun h => hp (List.mem_cons_of_mem _ h)
    show replaceFirst (pc :: pat0) rep (c :: (p' ++ ((pc :: pat0) ++ rest))) =
      c :: (p' ++ (rep ++ rest))
    simp only [replaceFirst, strip, if_neg hcp]
    exact congrArg (c :: ·) (ih hp')

theorem mem_joinSep {a : Char} {sep : Char} {L : List (List Char)}
    (h : a ∈ joinSep sep L) : a = sep ∨ ∃ s ∈ L, a ∈ s := by
  induction L with
  | nil => simp [joinSep] at h
  | cons s rest ih =>
    cases rest with
    | nil =>
      simp only [joinSep] at h
      exact Or.inr ⟨s, by simp, h⟩
    | cons s2 r =>
      simp only [joinSep, List.mem_append, List.mem_cons] at h
      rcases h with h | h | h
      · exact Or.inr ⟨s, by simp, h⟩
      · exact Or.inl h
      · rcases ih h with h | ⟨t, ht, hat⟩
        · exact Or.inl h
        · exact Or.inr ⟨t, List.mem_cons_of_mem _ ht, hat⟩

theorem map_joinSep (f : Char → Char) (sep : Char) (L : List (List Char)) :
    (joinSep sep L).map f = joinSep (f sep) (L.map (List.map f)) := by
  induction L with
  | nil => rfl
  | cons s rest ih =>
    cases rest with
    | nil => rfl
    | cons s2 r => simp only [joinSep, List.map_append, List.map_cons, ih, List.map]

theorem map_id_of_forall_ne {f : Char → Char} {s : List Char}
    (hf : ∀ c, c ≠ '/' → f c = c) (hs : ∀ c ∈ s, c ≠ '/') : s.map f = s := by
  induction s with
  | nil => rfl
  | cons c cs ih =>
    have h1 : f c = c := hf c (hs c (List.mem_cons_self _ _))
    have h2 : cs.map f = cs := ih (fun x hx => hs x (List.mem_cons_of_mem _ hx))
    simp [h1, h2]

/-- Characters of a well-formed slash-joined directory path: each is the
separator `/` or a good character. -/
theorem good_joinSep_mem {segs : List (List Char)} (hsegs : ∀ s ∈ segs, goodSeg s = true)
    {a : Char} (h : a ∈ joinSep '/' segs) : a = '/' ∨ goodChar a = true := by
  rcases mem_joinSep h with h | ⟨s, hs, has⟩
  · exact Or.inl h
  · have := hsegs s hs
    simp only [goodSeg, Bool.and_eq_true, List.all_eq_true] at this
    exact Or.inr (this.2 a has)

theorem goodChar_spec {a : Char} (h : goodChar a = true) :
    a ≠ '.' ∧ a ≠ '/' ∧ a ≠ ':' := by
  simp only [goodChar, Bool.and_eq_true, Bool.not_eq_true', decide_eq_false_iff_not] at h
  exact ⟨h.1.1, h.1.2, h.2⟩

theorem not_dot_mem_dirPath {segs : List (List Char)}
    (hsegs : ∀ s ∈ segs, goodSeg s = true) : '.' ∉ joinSep '/' segs := by
  intro h
  rcases good_joinSep_mem hsegs h with h | h
  · exact absurd h (by decide)
  · exact absurd rfl (goodChar_spec h).1

theorem not_colon_mem_dirPath {segs : List (List Char)}
    (hsegs : ∀ s ∈ segs, goodSeg s = true) : ':' ∉ joinSep '/' segs := by
  intro h
  rcases good_joinSep_mem hsegs h with h | h
  · exact absurd h (by decide)
  · exact absurd rfl (goodChar_spec h).2.2

/-- Claim C1.  For every identifier of the form `dir/sub/file.js:fnName`
(slash-separated good segments, a single `.js` extension marker before the
colon, then the function name), `identifierToRunPath` returns
`dir/sub/file:fnName` and `identifierToApiPath` returns
`dir.sub.file.fnName`. -/
theorem identifier_paths_of_wellformed (segs : List (List Char)) (fname : List Char)
    (hne : segs ≠ []) (hsegs : ∀ s ∈ segs, goodSeg s = true)
    (hf : goodSeg fname = true) :
    identifierToRunPath (mkIdentifier segs fname) = joinSep '/' segs ++ ':' :: fname ∧
    identifierToApiPath (mkIdentifier segs fname) = joinSep '.' segs ++ '.' :: fname := by
  clear hne
  have hfgood : ∀ c ∈ fname, goodChar c = true := by
    simp only [goodSeg, Bool.and_eq_true, List.all_eq_true] at hf
    exact hf.2
  have hdot : '.' ∉ joinSep '/' segs := not_dot_mem_dirPath hsegs
  have hjs1 : replaceFirst jsMarker [':'] (mkIdentifier segs fname) =
      joinSep '/' segs ++ ([':'] ++ fname) := by
    have := replaceFirst_append '.' ['j', 's', ':'] _ [':'] fname hdot
    simpa [mkIdentifier, jsMarker] using this
  have hjs2 : replaceFirst jsMarker ['.'] (mkIdentifier segs fname) =
      joinSep '/' segs ++ (['.'] ++ fname) := by
    have := replaceFirst_append '.' ['j', 's', ':'] _ ['.'] fname hdot
    simpa [mkIdentifier, jsMarker] using this
  constructor
  · rw [identifierToRunPath, hjs1]
    rw [replaceFirst_of_not_mem (a := '.') [':'] (by simp [tsMarker])]
    · simp
    · intro h
      rcases List.mem_append.1 h with h | h
      · exact hdot h
      · rcases List.mem_cons.1 h with h | h
        · exact absurd h (by decide)
        · exact absurd rfl (goodChar_spec (hfgood _ h)).1
  · rw [identifierToApiPath, hjs2]
    rw [replaceFirst_of_not_mem (a := ':') ['.'] (by simp [tsMarker])]
    · rw [List.map_append, map_joinSep]
      have h1 : segs.map (List.map (fun c => if c = '/' then '.' else c)) = segs := by
        apply List.map_congr_left ?_ |>.trans (List.map_id _)
        intro s hs
        apply map_id_of_forall_ne
        · intro c hc; simp [hc]
        · intro c hc
          have := hsegs s hs
          simp only [goodSeg, Bool.and_eq_true, List.all_eq_true] at this
          exact (goodChar_spec (this.2 c hc)).2.1
      have h2 : fname.map (fun c => if c = '/' then '.' else c) = fname := by
        apply map_id_of_forall_ne
        · intro c hc; simp [hc]
        · intro c hc
          exact (goodChar_spec (hfgood c hc)).2.1
      simp only [h1, List.map_cons, h2]
      simp
      exact h2
    · intro h
      rcases List.mem_append.1 h with h | h
      · exact not_colon_mem_dirPath hsegs h
      · rcases List.mem_cons.1 h with h | h
        · exact absurd h (by decide)
        · exact absurd rfl (goodChar_spec (hfgood _ h)).2.2

/-- Witness for C1 at the concrete identifier `d/s/f.js:g`. -/
theorem identifier_paths_of_wellformed_witness :
    identifierToRunPath (mkIdentifier [['d'], ['s'], ['f']] ['g']) =
      joinSep '/' [['d'], ['s'], ['f']] ++ ':' :: ['g'] ∧
    identifierToApiPath (mkIdentifier [['d'], ['s'], ['f']] ['g']) =
      joinSep '.' [['d'], ['s'], ['f']] ++ '.' :: ['g'] :=
  identifier_paths_of_wellformed [['d'], ['s'], ['f']] ['g']
    (by decide) (by decide) (by decide)

/-- Counterexample to claim C2 as stated: the identifiers `a.js:b` and
`a.ts:b` are distinct, yet `identifierToRunPath` sends both to `a:b`, so
the map on arbitrary identifiers loses information. -/
theorem runPath_not_injective :
    identifierToRunPath ['a', '.', 'j', 's', ':', 'b'] =
      identifierToRunPath ['a', '.', 't', 's', ':', 'b'] ∧
    ['a', '.', 'j', 's', ':', 'b'] ≠ ['a', '.', 't', 's', ':', 'b'] := by
  decide

/-- Claim C2, amended.  Restricted to well-formed identifiers of the form
`dir/sub/file.js:fnName` (good segments, a single `.js` marker), the run
path determines the identifier: `recoverIdentifier` inverts
`identifierToRunPath`, and the map is injective on such identifiers. -/
theorem runPath_reversible_on_wellformed (segs segs2 : List (List Char))
    (fname fname2 : List Char)
    (hne : segs ≠ []) (hsegs : ∀ s ∈ segs, goodSeg s = true) (hf : goodSeg fname = true)
    (hne2 : segs2 ≠ []) (hsegs2 : ∀ s ∈ segs2, goodSeg s = true)
    (hf2 : goodSeg fname2 = true) :
    recoverIdentifier (identifierToRunPath (mkIdentifier segs fname)) =
      mkIdentifier segs fname ∧
    (identifierToRunPath (mkIdentifier segs fname) =
        identifierToRunPath (mkIdentifier segs2 fname2) →
      mkIdentifier segs fname = mkIdentifier segs2 fname2) := by
  have key : ∀ (sg : List (List Char)) (fn : List Char), sg ≠ [] →
      (∀ s ∈ sg, goodSeg s = true) → goodSeg fn = true →
      recoverIdentifier (identifierToRunPath (mkIdentifier sg fn)) =
        mkIdentifier sg fn := by
    intro sg fn h1 h2 h3
    have hrun := (identifier_paths_of_wellformed sg fn h1 h2 h3).1
    rw [recoverIdentifier, hrun]
    have hcolon : ':' ∉ joinSep '/' sg := not_colon_mem_dirPath h2
    have := replaceFirst_append ':' [] _ jsMarker fn hcolon
    simpa [mkIdentifier] using this
  refine ⟨key segs fname hne hsegs hf, fun h => ?_⟩
  have e1 := key segs fname hne hsegs hf
  have e2 := key segs2 fname2 hne2 hsegs2 hf2
  rw [← e1, ← e2, h]

/-- Witness for the amended C2 at `d/f.js:g` and `x/y.js:z`. -/
theorem runPath_reversible_on_wellformed_witness :
    recoverIdentifier (identifierToRunPath (mkIdentifier [['d'], ['f']] ['g'])) =
      mkIdentifier [['d'], ['f']] ['g'] ∧
    (identifierToRunPath (mkIdentifier [['d'], ['f']] ['g']) =
        identifierToRunPath (mkIdentifier [['x'], ['y']] ['z']) →
      mkIdentifier [['d'], ['f']] ['g'] = mkIdentifier [['x'], ['y']] ['z']) :=
  runPath_reversible_on_wellformed [['d'], ['f']] [['x'], ['y']] ['g'] ['z']
    (by decide) (by decide) (by decide) (by decide) (by decide) (by decide)

end ConvexShell

namespace ConvexShell

theorem getKey_setKey_self (es : List (List Char × JVal)) (k : List Char) (v : JVal) :
    getKey (setKey es k v) k = some v := by
  induction es with
  | nil => simp [setKey, getKey]
  | cons e rest ih =>
    obtain ⟨k', v'⟩ := e
    by_cases h : k' = k
    · subst h; simp [setKey, getKey]
    · simp [setKey, getKey, h, ih]

theorem getKey_setKey_ne (es : List (List Char × JVal)) {k k' : List Char} (v : JVal)
    (h : k ≠ k') : getKey (setKey es k v) k' = getKey es k' := by
  induction es with
  | nil => simp [setKey, getKey, h]
  | cons e rest ih =>
    obtain ⟨a, b⟩ := e
    by_cases ha : a = k
    · subst ha
      simp [setKey, getKey, h, ih]
    · by_cases ha' : a = k'
      · subst ha'; simp [setKey, getKey, ha]
      · simp [setKey, getKey, ha, ha', ih]

theorem getChild_setChild_self (t : JVal) (k : List Char) (v : JVal) :
    getChild (setChild t k v) k = some v := by
  cases t <;>
    simp [getChild, setChild, JVal.children, JVal.withChildren, getKey_setKey_self]

theorem getChild_setChild_ne (t : JVal) {k k' : List Char} (v : JVal) (h : k ≠ k') :
    getChild (setChild t k v) k' = getChild t k' := by
  cases t <;>
    simp [getChild, setChild, JVal.children, JVal.withChildren, getKey_setKey_ne _ _ h]

theorem leafSpecOf_setChild (t : JVal) (k : List Char) (v : JVal) :
    leafSpecOf (setChild t k v) = leafSpecOf t := by
  cases t <;> rfl

theorem lookupNode_cons_some {t c : JVal} {k : List Char} {ks : List (List Char)}
    (h : getChild t k = some c) : lookupNode t (k :: ks) = lookupNode c ks := by
  simp [lookupNode, h]

theorem lookupNode_cons_none {t : JVal} {k : List Char} {ks : List (List Char)}
    (h : getChild t k = none) : lookupNode t (k :: ks) = none := by
  simp [lookupNode, h]

theorem lookupLeafSpec_nil (t : JVal) : lookupLeafSpec t [] = leafSpecOf t := rfl

theorem lookupLeafSpec_cons_some {t c : JVal} {k : List Char} {ks : List (List Char)}
    (h : getChild t k = some c) : lookupLeafSpec t (k :: ks) = lookupLeafSpec c ks := by
  simp [lookupLeafSpec, lookupNode_cons_some h]

theorem lookupLeafSpec_cons_none {t : JVal} {k : List Char} {ks : List (List Char)}
    (h : getChild t k = none) : lookupLeafSpec t (k :: ks) = none := by
  simp [lookupLeafSpec, lookupNode_cons_none h]

theorem getChild_emptyObj (k : List Char) : getChild (JVal.obj []) k = none := rfl

theorem lookupLeafSpec_emptyObj (p : List (List Char)) :
    lookupLeafSpec (JVal.obj []) p = none := by
  cases p with
  | nil => rfl
  | cons k ks => exact lookupLeafSpec_cons_none (getChild_emptyObj k)

theorem lookupNode_emptyObj {p : List (List Char)} (h : p ≠ []) :
    lookupNode (JVal.obj []) p = none := by
  cases p with
  | nil => exact absurd rfl h
  | cons k ks => exact lookupNode_cons_none (getChild_emptyObj k)

theorem fnLeaf_lookup_nil (f : FunctionSpec) :
    lookupLeafSpec (JVal.fn f []) [] = some f := rfl

theorem getChild_fnLeaf (f : FunctionSpec) (k : List Char) :
    getChild (JVal.fn f []) k = none := rfl

theorem segsLe_nil_left (p : List (List Char)) : segsLe [] p = true := rfl

theorem eq_nil_of_segsLe_nil {p : List (List Char)} (h : segsLe p [] = true) : p = [] := by
  cases p with
  | nil => rfl
  | cons a as => simp [segsLe] at h

theorem segsLe_refl (p : List (List Char)) : segsLe p p = true := by
  induction p with
  | nil => rfl
  | cons a as ih => simp [segsLe, ih]

theorem segsLe_trans : ∀ {a b c : List (List Char)},
    segsLe a b = true → segsLe b c = true → segsLe a c = true := by
  intro a
  induction a with
  | nil => intro b c _ _; rfl
  | cons x as ih =>
    intro b c hab hbc
    cases b with
    | nil => simp [segsLe] at hab
    | cons y bs =>
      simp only [segsLe] at hab
      split at hab
      · next hxy =>
        subst hxy
        cases c with
        | nil => simp [segsLe] at hbc
        | cons z cs =>
          simp only [segsLe] at hbc ⊢
          split at hbc
          · next hyz => subst hyz; simp [ih hab hbc]
          · exact absurd hbc (by simp)
      · exact absurd hab (by simp)

theorem splitSep_ne_nil (sep : Char) (s : List Char) : splitSep sep s ≠ [] := by
  cases s with
  | nil => simp [splitSep]
  | cons c cs =>
    simp only [splitSep]
    rcases h : splitSep sep cs with _ | ⟨h', t'⟩
    · simp
    · split
      · simp
      · split <;> simp

theorem pathParts_ne_nil (f : FunctionSpec) : pathParts f ≠ [] :=
  splitSep_ne_nil _ _

end ConvexShell

namespace ConvexShell

/-- Any function leaf visible after one insertion is either the freshly
inserted descriptor at its own path, or was already visible before. -/
theorem lookupLeafSpec_setPath_cases :
    ∀ (q : List (List Char)) (t : JVal) (f : FunctionSpec) (p : List (List Char))
      (s : FunctionSpec),
      lookupLeafSpec (setPath t q f) p = some s →
        (p = q ∧ s = f) ∨ lookupLeafSpec t p = some s := by
  intro q
  induction q with
  | nil =>
    intro t f p s h
    exact Or.inr (by simpa [setPath] using h)
  | cons k q' ih =>
    intro t f p s h
    cases q' with
    | nil =>
      simp only [setPath] at h
      cases p with
      | nil =>
        right
        rw [lookupLeafSpec_nil] at h ⊢
        rwa [leafSpecOf_setChild] at h
      | cons k' p' =>
        by_cases hk : k = k'
        · subst hk
          rw [lookupLeafSpec_cons_some (getChild_setChild_self t k (.fn f []))] at h
          cases p' with
          | nil =>
            rw [fnLeaf_lookup_nil] at h
            exact Or.inl ⟨rfl, (Option.some.inj h).symm⟩
          | cons k'' p'' =>
            rw [lookupLeafSpec_cons_none (getChild_fnLeaf f k'')] at h
            exact absurd h (by simp)
        · right
          cases hg : getChild t k' with
          | some c =>
            rw [lookupLeafSpec_cons_some ((getChild_setChild_ne t _ hk).trans hg)] at h
            rw [lookupLeafSpec_cons_some hg]
            exact h
          | none =>
            rw [lookupLeafSpec_cons_none ((getChild_setChild_ne t _ hk).trans hg)] at h
            exact absurd h (by simp)
    | cons k2 rest =>
      simp only [setPath] at h
      cases p with
      | nil =>
        right
        rw [lookupLeafSpec_nil] at h ⊢
        rwa [leafSpecOf_setChild] at h
      | cons k' p' =>
        by_cases hk : k = k'
        · subst hk
          rw [lookupLeafSpec_cons_some
            (getChild_setChild_self t k (setPath ((getChild t k).getD (.obj [])) (k2 :: rest) f))] at h
          rcases ih ((getChild t k).getD (.obj [])) f p' s h with ⟨hp, hs⟩ | hrec
          · subst hp; subst hs
            exact Or.inl ⟨rfl, rfl⟩
          · cases hg : getChild t k with
            | some c0 =>
              right
              rw [hg, Option.getD_some] at hrec
              rw [lookupLeafSpec_cons_some hg]
              exact hrec
            | none =>
              rw [hg, Option.getD_none, lookupLeafSpec_emptyObj] at hrec
              exact absurd hrec (by simp)
        · right
          cases hg : getChild t k' with
          | some c =>
            rw [lookupLeafSpec_cons_some ((getChild_setChild_ne t _ hk).trans hg)] at h
            rw [lookupLeafSpec_cons_some hg]
            exact h
          | none =>
            rw [lookupLeafSpec_cons_none ((getChild_setChild_ne t _ hk).trans hg)] at h
            exact absurd h (by simp)

end ConvexShell

namespace ConvexShell

/-- After inserting `f` at nonempty path `q`, the leaf at `q` is `f`. -/
theorem lookupLeafSpec_setPath_self :
    ∀ (q : List (List Char)) (t : JVal) (f : FunctionSpec), q ≠ [] →
      lookupLeafSpec (setPath t q f) q = some f := by
  intro q
  induction q with
  | nil => intro t f h; exact absurd rfl h
  | cons k q' ih =>
    intro t f _
    cases q' with
    | nil =>
      simp only [setPath]
      rw [lookupLeafSpec_cons_some (getChild_setChild_self t k (.fn f []))]
      exact fnLeaf_lookup_nil f
    | cons k2 rest =>
      simp only [setPath]
      rw [lookupLeafSpec_cons_some
        (getChild_setChild_self t k (setPath ((getChild t k).getD (.obj [])) (k2 :: rest) f))]
      exact ih _ f (by simp)

/-- Inserting at a path `q` that is not a leading piece of `p` leaves the
leaf visible at `p` unchanged. -/
theorem lookupLeafSpec_setPath_of_not_le :
    ∀ (q : List (List Char)) (t : JVal) (f : FunctionSpec) (p : List (List Char)),
      segsLe q p = false →
      lookupLeafSpec (setPath t q f) p = lookupLeafSpec t p := by
  intro q
  induction q with
  | nil => intro t f p h; simp [segsLe] at h
  | cons k q' ih =>
    intro t f p h
    cases q' with
    | nil =>
      simp only [setPath]
      cases p with
      | nil =>
        rw [lookupLeafSpec_nil, lookupLeafSpec_nil, leafSpecOf_setChild]
      | cons k' p' =>
        by_cases hk : k = k'
        · subst hk
          simp [segsLe] at h
        · cases hg : getChild t k' with
          | some c =>
            rw [lookupLeafSpec_cons_some ((getChild_setChild_ne t _ hk).trans hg),
              lookupLeafSpec_cons_some hg]
          | none =>
            rw [lookupLeafSpec_cons_none ((getChild_setChild_ne t _ hk).trans hg),
              lookupLeafSpec_cons_none hg]
    | cons k2 rest =>
      simp only [setPath]
      cases p with
      | nil =>
        rw [lookupLeafSpec_nil, lookupLeafSpec_nil, leafSpecOf_setChild]
      | cons k' p' =>
        by_cases hk : k = k'
        · subst hk
          have h' : segsLe (k2 :: rest) p' = false := by
            simpa [segsLe] using h
          rw [lookupLeafSpec_cons_some
            (getChild_setChild_self t k (setPath ((getChild t k).getD (.obj [])) (k2 :: rest) f))]
          rw [ih _ f p' h']
          cases hg : getChild t k with
          | some c0 =>
            rw [Option.getD_some, lookupLeafSpec_cons_some hg]
          | none =>
            rw [Option.getD_none, lookupLeafSpec_emptyObj,
              lookupLeafSpec_cons_none hg]
        · cases hg : getChild t k' with
          | some c =>
            rw [lookupLeafSpec_cons_some ((getChild_setChild_ne t _ hk).trans hg),
              lookupLeafSpec_cons_some hg]
          | none =>
            rw [lookupLeafSpec_cons_none ((getChild_setChild_ne t _ hk).trans hg),
              lookupLeafSpec_cons_none hg]

/-- After inserting along `q`, every leading piece of `q` is a reachable
node. -/
theorem lookupNode_setPath_of_le :
    ∀ (q : List (List Char)) (t : JVal) (f : FunctionSpec) (p : List (List Char)),
      segsLe p q = true → (lookupNode (setPath t q f) p).isSome := by
  intro q
  induction q with
  | nil =>
    intro t f p h
    rw [eq_nil_of_segsLe_nil h]
    simp [setPath, lookupNode]
  | cons k q' ih =>
    intro t f p h
    cases p with
    | nil => simp [lookupNode]
    | cons k' p' =>
      have hk : k' = k ∧ segsLe p' q' = true := by
        simp only [segsLe] at h
        split at h
        · next he => exact ⟨he, h⟩
        · exact absurd h (by simp)
      obtain ⟨rfl, hle⟩ := hk
      cases q' with
      | nil =>
        rw [eq_nil_of_segsLe_nil hle]
        simp only [setPath]
        rw [lookupNode_cons_some (getChild_setChild_self t k' (.fn f []))]
        simp [lookupNode]
      | cons k2 rest =>
        simp only [setPath]
        rw [lookupNode_cons_some
          (getChild_setChild_self t k' (setPath ((getChild t k').getD (.obj [])) (k2 :: rest) f))]
        exact ih _ f p' hle

/-- Inserting at a path that is not a leading piece of `p` cannot destroy
an existing node at `p`. -/
theorem lookupNode_setPath_mono :
    ∀ (q : List (List Char)) (t : JVal) (f : FunctionSpec) (p : List (List Char)),
      segsLe q p = false → (lookupNode t p).isSome →
      (lookupNode (setPath t q f) p).isSome := by
  intro q
  induction q with
  | nil => intro t f p h; simp [segsLe] at h
  | cons k q' ih =>
    intro t f p h hs
    cases p with
    | nil => simp [lookupNode]
    | cons k' p' =>
      by_cases hk : k = k'
      · subst hk
        have h' : segsLe q' p' = false := by simpa [segsLe] using h
        obtain ⟨c0, hg, hrest⟩ : ∃ c0, getChild t k = some c0 ∧ (lookupNode c0 p').isSome := by
          cases hg : getChild t k with
          | some c0 =>
            rw [lookupNode_cons_some hg] at hs
            exact ⟨c0, rfl, hs⟩
          | none =>
            rw [lookupNode_cons_none hg] at hs
            exact absurd hs (by simp)
        cases q' with
        | nil => simp [segsLe] at h'
        | cons k2 rest =>
          simp only [setPath]
          rw [lookupNode_cons_some
            (getChild_setChild_self t k (setPath ((getChild t k).getD (.obj [])) (k2 :: rest) f))]
          rw [hg, Option.getD_some]
          exact ih _ f p' h' hrest
      · cases q' with
        | nil =>
          simp only [setPath]
          cases hg : getChild t k' with
          | some c =>
            rw [lookupNode_cons_some hg] at hs
            rw [lookupNode_cons_some ((getChild_setChild_ne t _ hk).trans hg)]
            exact hs
          | none =>
            rw [lookupNode_cons_none hg] at hs
            exact absurd hs (by simp)
        | cons k2 rest =>
          simp only [setPath]
          cases hg : getChild t k' with
          | some c =>
            rw [lookupNode_cons_some hg] at hs
            rw [lookupNode_cons_some ((getChild_setChild_ne t _ hk).trans hg)]
            exact hs
          | none =>
            rw [lookupNode_cons_none hg] at hs
            exact absurd hs (by simp)

/-- Any node reachable after one insertion lies along the inserted path
or was already reachable. -/
theorem lookupNode_setPath_cases :
    ∀ (q : List (List Char)) (t : JVal) (f : FunctionSpec) (p : List (List Char)),
      (lookupNode (setPath t q f) p).isSome →
      segsLe p q = true ∨ (lookupNode t p).isSome := by
  intro q
  induction q with
  | nil => intro t f p h; exact Or.inr (by simpa [setPath] using h)
  | cons k q' ih =>
    intro t f p h
    cases p with
    | nil => exact Or.inl rfl
    | cons k' p' =>
      by_cases hk : k = k'
      · subst hk
        cases q' with
        | nil =>
          simp only [setPath] at h
          rw [lookupNode_cons_some (getChild_setChild_self t k (.fn f []))] at h
          cases p' with
          | nil => exact Or.inl (by simp [segsLe])
          | cons k'' p'' =>
            rw [lookupNode_cons_none (getChild_fnLeaf f k'')] at h
            exact absurd h (by simp)
        | cons k2 rest =>
          simp only [setPath] at h
          rw [lookupNode_cons_some
            (getChild_setChild_self t k (setPath ((getChild t k).getD (.obj [])) (k2 :: rest) f))] at h
          rcases ih _ f p' h with hle | hwas
          · exact Or.inl (by simp [segsLe, hle])
          · cases hg : getChild t k with
            | some c0 =>
              rw [hg, Option.getD_some] at hwas
              exact Or.inr (by rw [lookupNode_cons_some hg]; exact hwas)
            | none =>
              rw [hg, Option.getD_none] at hwas
              cases p' with
              | nil => exact Or.inl (by simp [segsLe])
              | cons k'' p'' =>
                rw [lookupNode_cons_none (getChild_emptyObj k'')] at hwas
                exact absurd hwas (by simp)
      · right
        cases q' with
        | nil =>
          simp only [setPath] at h
          cases hg : getChild t k' with
          | some c =>
            rw [lookupNode_cons_some ((getChild_setChild_ne t _ hk).trans hg)] at h
            rw [lookupNode_cons_some hg]
            exact h
          | none =>
            rw [lookupNode_cons_none ((getChild_setChild_ne t _ hk).trans hg)] at h
            exact absurd h (by simp)
        | cons k2 rest =>
          simp only [setPath] at h
          cases hg : getChild t k' with
          | some c =>
            rw [lookupNode_cons_some ((getChild_setChild_ne t _ hk).trans hg)] at h
            rw [lookupNode_cons_some hg]
            exact h
          | none =>
            rw [lookupNode_cons_none ((getChild_setChild_ne t _ hk).trans hg)] at h
            exact absurd h (by simp)

end ConvexShell

namespace ConvexShell

theorem foldl_insertSpec_lookup_cases :
    ∀ (L : List FunctionSpec) (t : JVal) (p : List (List Char)) (s : FunctionSpec),
      lookupLeafSpec (L.foldl insertSpec t) p = some s →
        (s ∈ L ∧ pathParts s = p) ∨ lookupLeafSpec t p = some s := by
  intro L
  induction L with
  | nil => intro t p s h; exact Or.inr h
  | cons d L' ih =>
    intro t p s h
    rw [List.foldl_cons] at h
    rcases ih _ p s h with ⟨hmem, hp⟩ | h2
    · exact Or.inl ⟨List.mem_cons_of_mem _ hmem, hp⟩
    · rw [insertSpec] at h2
      rcases lookupLeafSpec_setPath_cases (pathParts d) t d p s h2 with ⟨hp, hs⟩ | h3
      · subst hs; subst hp
        exact Or.inl ⟨List.mem_cons_self _ _, rfl⟩
      · exact Or.inr h3

theorem foldl_insertSpec_preserve :
    ∀ (L : List FunctionSpec) (t : JVal) (p : List (List Char)),
      (∀ e ∈ L, segsLe (pathParts e) p = false) →
      lookupLeafSpec (L.foldl insertSpec t) p = lookupLeafSpec t p := by
  intro L
  induction L with
  | nil => intro t p _; rfl
  | cons d L' ih =>
    intro t p h
    rw [List.foldl_cons, ih _ p (fun e he => h e (List.mem_cons_of_mem _ he)),
      insertSpec, lookupLeafSpec_setPath_of_not_le _ t d p (h d (List.mem_cons_self _ _))]

theorem foldl_insertSpec_node_mono :
    ∀ (L : List FunctionSpec) (t : JVal) (p : List (List Char)),
      (∀ e ∈ L, segsLe (pathParts e) p = false) →
      (lookupNode t p).isSome → (lookupNode (L.foldl insertSpec t) p).isSome := by
  intro L
  induction L with
  | nil => intro t p _ hs; exact hs
  | cons d L' ih =>
    intro t p h hs
    rw [List.foldl_cons]
    exact ih _ p (fun e he => h e (List.mem_cons_of_mem _ he))
      (by rw [insertSpec]
          exact lookupNode_setPath_mono _ t d p (h d (List.mem_cons_self _ _)) hs)

theorem foldl_insertSpec_node_cases :
    ∀ (L : List FunctionSpec) (t : JVal) (p : List (List Char)),
      (lookupNode (L.foldl insertSpec t) p).isSome →
        (∃ e ∈ L, segsLe p (pathParts e) = true) ∨ (lookupNode t p).isSome := by
  intro L
  induction L with
  | nil => intro t p h; exact Or.inr h
  | cons d L' ih =>
    intro t p h
    rw [List.foldl_cons] at h
    rcases ih _ p h with ⟨e, he, hle⟩ | h2
    · exact Or.inl ⟨e, List.mem_cons_of_mem _ he, hle⟩
    · rw [insertSpec] at h2
      rcases lookupNode_setPath_cases (pathParts d) t d p h2 with hle | h3
      · exact Or.inl ⟨d, List.mem_cons_self _ _, hle⟩
      · exact Or.inr h3

/-- Every function leaf of a built tree is a descriptor of the input list
with the requested visibility kind, sitting at its own derived path. -/
theorem createProxyTree_lookup_sound (l : List FunctionSpec) (vis : List Char)
    (p : List (List Char)) (s : FunctionSpec)
    (h : lookupLeafSpec (createProxyTree l vis) p = some s) :
    s ∈ l ∧ visKind s = some vis ∧ pathParts s = p := by
  rw [createProxyTree] at h
  rcases foldl_insertSpec_lookup_cases _ _ p s h with ⟨hmem, hp⟩ | h2
  · have hm := List.mem_filter.1 hmem
    exact ⟨hm.1, of_decide_eq_true hm.2, hp⟩
  · rw [lookupLeafSpec_emptyObj] at h2
    exact absurd h2 (by simp)

theorem exists_append_last_not_mem {α : Type} {a : α} :
    ∀ {l : List α}, a ∈ l → ∃ u v, l = u ++ a :: v ∧ a ∉ v := by
  intro l
  induction l with
  | nil => intro h; simp at h
  | cons b l' ih =>
    intro h
    by_cases hmem : a ∈ l'
    · rcases ih hmem with ⟨u, v, rfl, hna⟩
      exact ⟨b :: u, v, rfl, hna⟩
    · have hab : a = b := by
        rcases List.mem_cons.1 h with h | h
        · exact h
        · exact absurd h hmem
      subst hab
      exact ⟨[], l', rfl, hmem⟩

/-- If no other descriptor of the same visibility class has a path that
is a leading piece of `d`'s path, then `d` is the leaf at its own derived
path in the built tree. -/
theorem createProxyTree_lookup_complete (l : List FunctionSpec) (vis : List Char)
    (d : FunctionSpec) (hd : d ∈ l) (hvis : visKind d = some vis)
    (hpf : ∀ e ∈ l, visKind e = some vis → e ≠ d →
      segsLe (pathParts e) (pathParts d) = false) :
    lookupLeafSpec (createProxyTree l vis) (pathParts d) = some d := by
  rw [createProxyTree]
  have hdf : d ∈ l.filter (fun f => decide (visKind f = some vis)) :=
    List.mem_filter.2 ⟨hd, decide_eq_true hvis⟩
  rcases exists_append_last_not_mem hdf with ⟨u, v, heq, hnv⟩
  rw [heq, List.foldl_append, List.foldl_cons]
  rw [foldl_insertSpec_preserve v _ _ ?later]
  case later =>
    intro e he
    have hev : e ∈ l.filter (fun f => decide (visKind f = some vis)) := by
      rw [heq]
      exact List.mem_append.2 (Or.inr (List.mem_cons_of_mem _ he))
    have hm := List.mem_filter.1 hev
    exact hpf e hm.1 (of_decide_eq_true hm.2) (fun hed => hnv (hed ▸ he))
  rw [insertSpec]
  exact lookupLeafSpec_setPath_self (pathParts d) _ d (pathParts_ne_nil d)

/-- Every node of a built tree is the root or lies along the derived path
of some inserted descriptor. -/
theorem createProxyTree_node_sound (l : List FunctionSpec) (vis : List Char)
    (p : List (List Char))
    (h : (lookupNode (createProxyTree l vis) p).isSome) :
    p = [] ∨ ∃ d ∈ l, visKind d = some vis ∧ segsLe p (pathParts d) = true := by
  rw [createProxyTree] at h
  rcases foldl_insertSpec_node_cases _ _ p h with ⟨e, he, hle⟩ | h2
  · have hm := List.mem_filter.1 he
    exact Or.inr ⟨e, hm.1, of_decide_eq_true hm.2, hle⟩
  · left
    by_contra hne
    rw [lookupNode_emptyObj hne] at h2
    exact absurd h2 (by simp)

/-- Conversely, under the collision-freedom hypothesis every leading
piece of an inserted descriptor's path is a reachable node. -/
theorem createProxyTree_node_complete (l : List FunctionSpec) (vis : List Char)
    (d : FunctionSpec) (p : List (List Char)) (hd : d ∈ l) (hvis : visKind d = some vis)
    (hpf : ∀ e ∈ l, visKind e = some vis → e ≠ d →
      segsLe (pathParts e) (pathParts d) = false)
    (hle : segsLe p (pathParts d) = true) :
    (lookupNode (createProxyTree l vis) p).isSome := by
  rw [createProxyTree]
  have hdf : d ∈ l.filter (fun f => decide (visKind f = some vis)) :=
    List.mem_filter.2 ⟨hd, decide_eq_true hvis⟩
  rcases exists_append_last_not_mem hdf with ⟨u, v, heq, hnv⟩
  rw [heq, List.foldl_append, List.foldl_cons]
  apply foldl_insertSpec_node_mono v _ p ?later
  case later =>
    intro e he
    have hev : e ∈ l.filter (fun f => decide (visKind f = some vis)) := by
      rw [heq]
      exact List.mem_append.2 (Or.inr (List.mem_cons_of_mem _ he))
    have hm := List.mem_filter.1 hev
    by_contra hcon
    have hle2 : segsLe (pathParts e) p = true := by
      cases hb : segsLe (pathParts e) p
      · exact absurd hb hcon
      · rfl
    have := segsLe_trans hle2 hle
    have hne : e ≠ d := fun hed => hnv (hed ▸ he)
    rw [hpf e hm.1 (of_decide_eq_true hm.2) hne] at this
    exact absurd this (by simp)
  rw [insertSpec]
  exact lookupNode_setPath_of_le (pathParts d) _ d p hle

end ConvexShell

namespace ConvexShell

theorem length_filter_not_eq (p : FunctionSpec → Bool) (l : List FunctionSpec) :
    l.length - (l.filter p).length = (l.filter (fun a => !(p a))).length := by
  induction l with
  | nil => rfl
  | cons a l' ih =>
    have hle : (l'.filter p).length ≤ l'.length := List.length_filter_le _ _
    cases h : p a <;>
      simp [List.filter_cons, h, Nat.succ_sub hle, Nat.succ_sub_succ, ih]

/-- Counterexample to claim C3 as stated: a descriptor whose visibility
kind is the truthy string `other` survives the filter of `update`, yet
both built trees are empty, so the two leaf sets do not cover the
filtered list. -/
theorem update_partition_counterexample :
    validFunctions [⟨['a'], ['Q'], some ⟨some ['o', 't', 'h', 'e', 'r']⟩⟩] =
      [⟨['a'], ['Q'], some ⟨some ['o', 't', 'h', 'e', 'r']⟩⟩] ∧
    createProxyTree (validFunctions [⟨['a'], ['Q'], some ⟨some ['o', 't', 'h', 'e', 'r']⟩⟩])
      pubKind = JVal.obj [] ∧
    createProxyTree (validFunctions [⟨['a'], ['Q'], some ⟨some ['o', 't', 'h', 'e', 'r']⟩⟩])
      intKind = JVal.obj [] :=
  ⟨rfl, rfl, rfl⟩

/-- Claim C3, amended.  If every filtered descriptor's kind is `public`
or `internal`, and no two distinct filtered descriptors have derived
paths where one is a leading piece of the other, then every leaf of the
`api` tree is public, every leaf of the `internal` tree is internal, and
every filtered descriptor is a leaf of exactly the tree of its kind. -/
theorem update_partition (l : List FunctionSpec)
    (h1 : ∀ d ∈ validFunctions l, visKind d = some pubKind ∨ visKind d = some intKind)
    (h2 : ∀ d ∈ validFunctions l, ∀ e ∈ validFunctions l, e ≠ d →
      segsLe (pathParts e) (pathParts d) = false) :
    (∀ p s, lookupLeafSpec (createProxyTree (validFunctions l) pubKind) p = some s →
      visKind s = some pubKind) ∧
    (∀ p s, lookupLeafSpec (createProxyTree (validFunctions l) intKind) p = some s →
      visKind s = some intKind) ∧
    (∀ d ∈ validFunctions l,
      (visKind d = some pubKind →
        lookupLeafSpec (createProxyTree (validFunctions l) pubKind) (pathParts d) = some d ∧
        ∀ p, lookupLeafSpec (createProxyTree (validFunctions l) intKind) p ≠ some d) ∧
      (visKind d = some intKind →
        lookupLeafSpec (createProxyTree (validFunctions l) intKind) (pathParts d) = some d ∧
        ∀ p, lookupLeafSpec (createProxyTree (validFunctions l) pubKind) p ≠ some d)) := by
  clear h1
  refine ⟨?_, ?_, ?_⟩
  · intro p s h
    exact (createProxyTree_lookup_sound _ _ _ _ h).2.1
  · intro p s h
    exact (createProxyTree_lookup_sound _ _ _ _ h).2.1
  · intro d hd
    constructor
    · intro hpub
      refine ⟨createProxyTree_lookup_complete _ _ d hd hpub
        (fun e he _ hne => h2 d hd e he hne), ?_⟩
      intro p hcon
      have := (createProxyTree_lookup_sound _ _ _ _ hcon).2.1
      rw [hpub] at this
      have : pubKind = intKind := Option.some.inj this
      exact absurd this (by decide)
    · intro hint
      refine ⟨createProxyTree_lookup_complete _ _ d hd hint
        (fun e he _ hne => h2 d hd e he hne), ?_⟩
      intro p hcon
      have := (createProxyTree_lookup_sound _ _ _ _ hcon).2.1
      rw [hint] at this
      have : intKind = pubKind := Option.some.inj this
      exact absurd this (by decide)

/-- Witness for the amended C3 on a two-descriptor list with one public
and one internal function. -/
theorem update_partition_witness :
    (∀ d ∈ validFunctions [⟨['a'], ['Q'], some ⟨some pubKind⟩⟩,
        ⟨['b'], ['M'], some ⟨some intKind⟩⟩],
      visKind d = some pubKind ∨ visKind d = some intKind) ∧
    ((∀ p s, lookupLeafSpec (createProxyTree (validFunctions
        [⟨['a'], ['Q'], some ⟨some pubKind⟩⟩, ⟨['b'], ['M'], some ⟨some intKind⟩⟩])
        pubKind) p = some s → visKind s = some pubKind) ∧
     (∀ p s, lookupLeafSpec (createProxyTree (validFunctions
        [⟨['a'], ['Q'], some ⟨some pubKind⟩⟩, ⟨['b'], ['M'], some ⟨some intKind⟩⟩])
        intKind) p = some s → visKind s = some intKind) ∧
     (∀ d ∈ validFunctions [⟨['a'], ['Q'], some ⟨some pubKind⟩⟩,
          ⟨['b'], ['M'], some ⟨some intKind⟩⟩],
       (visKind d = some pubKind →
         lookupLeafSpec (createProxyTree (validFunctions
           [⟨['a'], ['Q'], some ⟨some pubKind⟩⟩, ⟨['b'], ['M'], some ⟨some intKind⟩⟩])
           pubKind) (pathParts d) = some d ∧
         ∀ p, lookupLeafSpec (createProxyTree (validFunctions
           [⟨['a'], ['Q'], some ⟨some pubKind⟩⟩, ⟨['b'], ['M'], some ⟨some intKind⟩⟩])
           intKind) p ≠ some d) ∧
       (visKind d = some intKind →
         lookupLeafSpec (createProxyTree (validFunctions
           [⟨['a'], ['Q'], some ⟨some pubKind⟩⟩, ⟨['b'], ['M'], some ⟨some intKind⟩⟩])
           intKind) (pathParts d) = some d ∧
         ∀ p, lookupLeafSpec (createProxyTree (validFunctions
           [⟨['a'], ['Q'], some ⟨some pubKind⟩⟩, ⟨['b'], ['M'], some ⟨some intKind⟩⟩])
           pubKind) p ≠ some d))) :=
  ⟨by decide,
   update_partition [⟨['a'], ['Q'], some ⟨some pubKind⟩⟩, ⟨['b'], ['M'], some ⟨some intKind⟩⟩]
     (by decide) (by decide)⟩

end ConvexShell

namespace ConvexShell

/-- Counterexample to claim C5 as stated: two descriptors with the same
derived path (`a.js:b` and `a.ts:b` both map to `a.b`) but different
function types.  The two orders of the same two-element list are a
permutation of one another, yet the built trees bind the leaf `a.b` to
different descriptors, so construction is not order-independent. -/
theorem createProxyTree_perm_counterexample :
    List.Perm
      [(⟨['a', '.', 'j', 's', ':', 'b'], ['Q'], some ⟨some pubKind⟩⟩ : FunctionSpec),
        ⟨['a', '.', 't', 's', ':', 'b'], ['M'], some ⟨some pubKind⟩⟩]
      [⟨['a', '.', 't', 's', ':', 'b'], ['M'], some ⟨some pubKind⟩⟩,
        ⟨['a', '.', 'j', 's', ':', 'b'], ['Q'], some ⟨some pubKind⟩⟩] ∧
    lookupLeafSpec (createProxyTree
        [⟨['a', '.', 'j', 's', ':', 'b'], ['Q'], some ⟨some pubKind⟩⟩,
          ⟨['a', '.', 't', 's', ':', 'b'], ['M'], some ⟨some pubKind⟩⟩] pubKind)
        [['a'], ['b']] =
      some ⟨['a', '.', 't', 's', ':', 'b'], ['M'], some ⟨some pubKind⟩⟩ ∧
    lookupLeafSpec (createProxyTree
        [⟨['a', '.', 't', 's', ':', 'b'], ['M'], some ⟨some pubKind⟩⟩,
          ⟨['a', '.', 'j', 's', ':', 'b'], ['Q'], some ⟨some pubKind⟩⟩] pubKind)
        [['a'], ['b']] =
      some ⟨['a', '.', 'j', 's', ':', 'b'], ['Q'], some ⟨some pubKind⟩⟩ ∧
    (⟨['a', '.', 'j', 's', ':', 'b'], ['Q'], some ⟨some pubKind⟩⟩ : FunctionSpec) ≠
      ⟨['a', '.', 't', 's', ':', 'b'], ['M'], some ⟨some pubKind⟩⟩ :=
  ⟨List.Perm.swap _ _ _, rfl, rfl, by decide⟩

/-- Claim C5, amended.  If no two distinct descriptors of the filtered
visibility class have derived paths where one is a leading piece of the
other (in particular no duplicate paths), then any two permutations of
the descriptor list build trees with the same reachable nodes and the
same leaf bindings at every path. -/
theorem createProxyTree_perm_invariant (l1 l2 : List FunctionSpec) (vis : List Char)
    (hperm : List.Perm l1 l2)
    (hpf : ∀ d ∈ l1, ∀ e ∈ l1, visKind d = some vis → visKind e = some vis → e ≠ d →
      segsLe (pathParts e) (pathParts d) = false) :
    ∀ p, ((lookupNode (createProxyTree l1 vis) p).isSome =
        (lookupNode (createProxyTree l2 vis) p).isSome) ∧
      lookupLeafSpec (createProxyTree l1 vis) p =
        lookupLeafSpec (createProxyTree l2 vis) p := by
  have hmem : ∀ x : FunctionSpec, x ∈ l1 ↔ x ∈ l2 := fun x => hperm.mem_iff
  have hpf2 : ∀ d ∈ l2, ∀ e ∈ l2, visKind d = some vis → visKind e = some vis → e ≠ d →
      segsLe (pathParts e) (pathParts d) = false := by
    intro d hd e he
    exact hpf d ((hmem d).2 hd) e ((hmem e).2 he)
  have keyLeaf : ∀ (la lb : List FunctionSpec),
      (∀ x : FunctionSpec, x ∈ la ↔ x ∈ lb) →
      (∀ d ∈ lb, ∀ e ∈ lb, visKind d = some vis → visKind e = some vis → e ≠ d →
        segsLe (pathParts e) (pathParts d) = false) →
      ∀ p s, lookupLeafSpec (createProxyTree la vis) p = some s →
        lookupLeafSpec (createProxyTree lb vis) p = some s := by
    intro la lb hm hpb p s h
    obtain ⟨hs, hk, hp⟩ := createProxyTree_lookup_sound la vis p s h
    rw [← hp]
    exact createProxyTree_lookup_complete lb vis s ((hm s).1 hs) hk
      (fun e he hke hne => hpb s ((hm s).1 hs) e he hk hke hne)
  have keyNode : ∀ (la lb : List FunctionSpec),
      (∀ x : FunctionSpec, x ∈ la ↔ x ∈ lb) →
      (∀ d ∈ lb, ∀ e ∈ lb, visKind d = some vis → visKind e = some vis → e ≠ d →
        segsLe (pathParts e) (pathParts d) = false) →
      ∀ p, (lookupNode (createProxyTree la vis) p).isSome →
        (lookupNode (createProxyTree lb vis) p).isSome := by
    intro la lb hm hpb p h
    rcases createProxyTree_node_sound la vis p h with rfl | ⟨d, hd, hk, hle⟩
    · simp [lookupNode]
    · exact createProxyTree_node_complete lb vis d p ((hm d).1 hd) hk
        (fun e he hke hne => hpb d ((hm d).1 hd) e he hk hke hne) hle
  intro p
  constructor
  · cases hb1 : (lookupNode (createProxyTree l1 vis) p).isSome
    · cases hb2 : (lookupNode (createProxyTree l2 vis) p).isSome
      · rfl
      · have := keyNode l2 l1 (fun x => (hmem x).symm) hpf p hb2
        rw [hb1] at this
        exact this
    · exact (keyNode l1 l2 hmem hpf2 p hb1).symm
  · cases hv : lookupLeafSpec (createProxyTree l1 vis) p with
    | some s => exact (keyLeaf l1 l2 hmem hpf2 p s hv).symm
    | none =>
      cases hv2 : lookupLeafSpec (createProxyTree l2 vis) p with
      | some s =>
        have := keyLeaf l2 l1 (fun x => (hmem x).symm) hpf p s hv2
        rw [hv] at this
        exact absurd this (by simp)
      | none => rfl

/-- Witness for the amended C5 on a concrete two-descriptor list and its
swap. -/
theorem createProxyTree_perm_invariant_witness :
    List.Perm
      [(⟨['a'], ['Q'], some ⟨some pubKind⟩⟩ : FunctionSpec),
        ⟨['b'], ['M'], some ⟨some pubKind⟩⟩]
      [⟨['b'], ['M'], some ⟨some pubKind⟩⟩, ⟨['a'], ['Q'], some ⟨some pubKind⟩⟩] ∧
    ∀ p, ((lookupNode (createProxyTree
          [(⟨['a'], ['Q'], some ⟨some pubKind⟩⟩ : FunctionSpec),
            ⟨['b'], ['M'], some ⟨some pubKind⟩⟩] pubKind) p).isSome =
        (lookupNode (createProxyTree
          [⟨['b'], ['M'], some ⟨some pubKind⟩⟩,
            ⟨['a'], ['Q'], some ⟨some pubKind⟩⟩] pubKind) p).isSome) ∧
      lookupLeafSpec (createProxyTree
          [(⟨['a'], ['Q'], some ⟨some pubKind⟩⟩ : FunctionSpec),
            ⟨['b'], ['M'], some ⟨some pubKind⟩⟩] pubKind) p =
        lookupLeafSpec (createProxyTree
          [⟨['b'], ['M'], some ⟨some pubKind⟩⟩,
            ⟨['a'], ['Q'], some ⟨some pubKind⟩⟩] pubKind) p :=
  ⟨List.Perm.swap _ _ _,
   createProxyTree_perm_invariant
     [⟨['a'], ['Q'], some ⟨some pubKind⟩⟩, ⟨['b'], ['M'], some ⟨some pubKind⟩⟩]
     [⟨['b'], ['M'], some ⟨some pubKind⟩⟩, ⟨['a'], ['Q'], some ⟨some pubKind⟩⟩]
     pubKind (List.Perm.swap _ _ _) (by decide)⟩

/-- Counterexample to claim C8 as stated: the first two descriptors both
derive the path `a.b`, so by the claim the leaf at `a.b` should be bound
to the second of them; but a third, later descriptor whose path `a` is a
leading piece of `a.b` overwrites the module node wholesale, and the
lookup at `a.b` finds nothing. -/
theorem last_write_wins_counterexample :
    pathParts ⟨['a', '.', 'j', 's', ':', 'b'], ['Q'], some ⟨some pubKind⟩⟩ =
      [['a'], ['b']] ∧
    pathParts ⟨['a', '.', 't', 's', ':', 'b'], ['M'], some ⟨some pubKind⟩⟩ =
      [['a'], ['b']] ∧
    (⟨['a', '.', 'j', 's', ':', 'b'], ['Q'], some ⟨some pubKind⟩⟩ : FunctionSpec) ≠
      ⟨['a', '.', 't', 's', ':', 'b'], ['M'], some ⟨some pubKind⟩⟩ ∧
    pathParts ⟨['a'], ['A'], some ⟨some pubKind⟩⟩ = [['a']] ∧
    lookupLeafSpec (createProxyTree
        [⟨['a', '.', 'j', 's', ':', 'b'], ['Q'], some ⟨some pubKind⟩⟩,
          ⟨['a', '.', 't', 's', ':', 'b'], ['M'], some ⟨some pubKind⟩⟩,
          ⟨['a'], ['A'], some ⟨some pubKind⟩⟩] pubKind) [['a'], ['b']] = none :=
  ⟨rfl, rfl, by decide, rfl, rfl⟩

/-- Claim C8, amended.  If `d` is the last descriptor of its visibility
class deriving its path, and no later descriptor of that class has a path
that is a leading piece of `d`'s path, then after construction the leaf
at that path is bound to `d`; construction never raises an error (it is a
total function). -/
theorem last_write_wins (l1 l2 : List FunctionSpec) (d : FunctionSpec) (vis : List Char)
    (hvis : visKind d = some vis)
    (hafter : ∀ e ∈ l2, visKind e = some vis →
      segsLe (pathParts e) (pathParts d) = false) :
    lookupLeafSpec (createProxyTree (l1 ++ d :: l2) vis) (pathParts d) = some d := by
  rw [createProxyTree, List.filter_append, List.filter_cons, if_pos (decide_eq_true hvis),
    List.foldl_append, List.foldl_cons]
  rw [foldl_insertSpec_preserve _ _ _ ?later]
  case later =>
    intro e he
    have hm := List.mem_filter.1 he
    exact hafter e hm.1 (of_decide_eq_true hm.2)
  rw [insertSpec]
  exact lookupLeafSpec_setPath_self (pathParts d) _ d (pathParts_ne_nil d)

/-- Witness for the amended C8: two public descriptors share the path
`a.b`; the built tree binds that leaf to the later one. -/
theorem last_write_wins_witness :
    visKind ⟨['a', '.', 't', 's', ':', 'b'], ['M'], some ⟨some pubKind⟩⟩ = some pubKind ∧
    lookupLeafSpec (createProxyTree
        ([⟨['a', '.', 'j', 's', ':', 'b'], ['Q'], some ⟨some pubKind⟩⟩] ++
          ⟨['a', '.', 't', 's', ':', 'b'], ['M'], some ⟨some pubKind⟩⟩ :: []) pubKind)
      (pathParts ⟨['a', '.', 't', 's', ':', 'b'], ['M'], some ⟨some pubKind⟩⟩) =
      some ⟨['a', '.', 't', 's', ':', 'b'], ['M'], some ⟨some pubKind⟩⟩ :=
  ⟨by decide,
   last_write_wins [⟨['a', '.', 'j', 's', ':', 'b'], ['Q'], some ⟨some pubKind⟩⟩] []
     ⟨['a', '.', 't', 's', ':', 'b'], ['M'], some ⟨some pubKind⟩⟩ pubKind
     (by decide) (by decide)⟩

end ConvexShell

namespace ConvexShell

/-- Claim C10.  A descriptor whose visibility is present with a truthy
kind that is neither `public` nor `internal` passes the validity filter of
`update` (so it is not part of the reported skipped count, which counts
exactly the descriptors without a usable visibility), yet it is a leaf of
neither built tree: it vanishes silently. -/
theorem unknown_kind_vanishes_silently (l : List FunctionSpec) (f : FunctionSpec)
    (hf : f ∈ l) (ht : kindTruthy f = true)
    (hpub : visKind f ≠ some pubKind) (hint : visKind f ≠ some intKind) :
    f ∈ validFunctions l ∧
    (∀ p, lookupLeafSpec (createProxyTree (validFunctions l) pubKind) p ≠ some f) ∧
    (∀ p, lookupLeafSpec (createProxyTree (validFunctions l) intKind) p ≠ some f) ∧
    invalidCount l = (l.filter (fun g => !(kindTruthy g))).length := by
  refine ⟨List.mem_filter.2 ⟨hf, ht⟩, ?_, ?_, ?_⟩
  · intro p hcon
    exact hpub (createProxyTree_lookup_sound _ _ _ _ hcon).2.1
  · intro p hcon
    exact hint (createProxyTree_lookup_sound _ _ _ _ hcon).2.1
  · rw [invalidCount, validFunctions]
    exact length_filter_not_eq kindTruthy l

/-- Witness for C10: a descriptor with the truthy kind `x` next to one
with no visibility at all; the former is counted valid and appears in
neither tree, the skipped count covers only the latter. -/
theorem unknown_kind_vanishes_silently_witness :
    (⟨['a'], ['Q'], some ⟨some ['x']⟩⟩ : FunctionSpec) ∈
      validFunctions [⟨['a'], ['Q'], some ⟨some ['x']⟩⟩, ⟨['b'], ['M'], none⟩] ∧
    (∀ p, lookupLeafSpec (createProxyTree (validFunctions
        [⟨['a'], ['Q'], some ⟨some ['x']⟩⟩, ⟨['b'], ['M'], none⟩]) pubKind) p ≠
      some ⟨['a'], ['Q'], some ⟨some ['x']⟩⟩) ∧
    (∀ p, lookupLeafSpec (createProxyTree (validFunctions
        [⟨['a'], ['Q'], some ⟨some ['x']⟩⟩, ⟨['b'], ['M'], none⟩]) intKind) p ≠
      some ⟨['a'], ['Q'], some ⟨some ['x']⟩⟩) ∧
    invalidCount [⟨['a'], ['Q'], some ⟨some ['x']⟩⟩, ⟨['b'], ['M'], none⟩] =
      (List.filter (fun g => !(kindTruthy g))
        [⟨['a'], ['Q'], some ⟨some ['x']⟩⟩, ⟨['b'], ['M'], none⟩]).length :=
  unknown_kind_vanishes_silently
    [⟨['a'], ['Q'], some ⟨some ['x']⟩⟩, ⟨['b'], ['M'], none⟩]
    ⟨['a'], ['Q'], some ⟨some ['x']⟩⟩
    (by decide) (by decide) (by decide) (by decide)

/-- Claim C4.  When the spec subprocess exits non-zero or its stdout is
not valid JSON, `update` propagates a failure carrying the captured
message and returns the prior global state untouched: the previously
built `api` and `internal` trees (and the deployment label) are exactly
as they were. -/
theorem update_failure_preserves_state (m : List Char) (g : Globals) :
    update (.execFail m) g = (Except.error m, g) ∧
    update (.badJson m) g = (Except.error m, g) :=
  ⟨rfl, rfl⟩

/-- Counterexample to claim C9 as stated: with a prior label `fx` from an
earlier fetch, a URL that does not match the pattern leaves the label at
`fx`; it does not fall back to the placeholder `unknown`. -/
theorem deployment_fallback_counterexample :
    jsRegexFirstMatch ['z'] = none ∧
    updateDeploymentName ['f', 'x'] ['z'] = ['f', 'x'] ∧
    ['f', 'x'] ≠ unknownName :=
  ⟨rfl, rfl, by decide⟩

theorem takeWhile_append_of_forall {p : Char → Bool} :
    ∀ {l1 : List Char} {x : Char} (l2 : List Char),
      (∀ c ∈ l1, p c = true) → p x = false →
      (l1 ++ x :: l2).takeWhile p = l1 := by
  intro l1
  induction l1 with
  | nil =>
    intro x l2 _ hx
    simp [List.takeWhile_cons, hx]
  | cons c cs ih =>
    intro x l2 h hx
    have hc : p c = true := h c (List.mem_cons_self _ _)
    simp only [List.cons_append, List.takeWhile_cons, hc, if_pos]
    rw [ih l2 (fun a ha => h a (List.mem_cons_of_mem _ ha)) hx]

theorem tryMatchAt_url (secure : Bool) (label rest : List Char)
    (h1 : label ≠ []) (h2 : ∀ c ∈ label, c ≠ '.') :
    tryMatchAt ((if secure then ['h', 't', 't', 'p', 's', ':', '/', '/']
      else ['h', 't', 't', 'p', ':', '/', '/']) ++ label ++ '.' :: rest) = some label := by
  have hrun : (label ++ '.' :: rest).takeWhile (fun c => !(c = '.')) = label := by
    apply takeWhile_append_of_forall rest
    · intro c hc
      simp [h2 c hc]
    · simp
  have hdrop : (label ++ '.' :: rest).drop label.length = '.' :: rest := by
    have := List.drop_left label ('.' :: rest)
    simpa using this
  have hempty : label.isEmpty = false := by
    cases label
    · exact absurd rfl h1
    · rfl
  have hcore : matchHostLabel (label ++ '.' :: rest) = some label := by
    rw [matchHostLabel]
    rw [hrun, hdrop]
    simp [hempty]
  cases secure
  · show tryMatchAt ('h' :: 't' :: 't' :: 'p' :: ':' :: '/' :: '/' ::
      (label ++ '.' :: rest)) = some label
    calc tryMatchAt ('h' :: 't' :: 't' :: 'p' :: ':' :: '/' :: '/' ::
        (label ++ '.' :: rest)) = matchHostLabel (label ++ '.' :: rest) := rfl
      _ = some label := hcore
  · show tryMatchAt ('h' :: 't' :: 't' :: 'p' :: 's' :: ':' :: '/' :: '/' ::
      (label ++ '.' :: rest)) = some label
    calc tryMatchAt ('h' :: 't' :: 't' :: 'p' :: 's' :: ':' :: '/' :: '/' ::
        (label ++ '.' :: rest)) = matchHostLabel (label ++ '.' :: rest) := rfl
      _ = some label := hcore

/-- Claim C9, amended.  For a URL of the form `scheme://label.rest` with
scheme `http` or `https` and a nonempty dot-free label, `update` derives
the deployment label as the host segment before the first dot; when the
URL does not match the pattern anywhere, the label keeps its previous
value (so it reads `unknown` only until a first successful match, not as
a renewed fallback). -/
theorem deployment_name_derivation (secure : Bool) (label rest prior : List Char)
    (h1 : label ≠ []) (h2 : ∀ c ∈ label, c ≠ '.') :
    updateDeploymentName prior
      ((if secure then ['h', 't', 't', 'p', 's', ':', '/', '/']
        else ['h', 't', 't', 'p', ':', '/', '/']) ++ label ++ '.' :: rest) = label ∧
    (∀ url p2, jsRegexFirstMatch url = none → updateDeploymentName p2 url = p2) := by
  constructor
  · have hmatch := tryMatchAt_url secure label rest h1 h2
    cases secure
    · show updateDeploymentName prior
        ('h' :: 't' :: 't' :: 'p' :: ':' :: '/' :: '/' :: (label ++ '.' :: rest)) = label
      have hm : tryMatchAt
          ('h' :: 't' :: 't' :: 'p' :: ':' :: '/' :: '/' :: (label ++ '.' :: rest)) =
          some label := hmatch
      have hj : jsRegexFirstMatch
          ('h' :: 't' :: 't' :: 'p' :: ':' :: '/' :: '/' :: (label ++ '.' :: rest)) =
          some label := by
        rw [jsRegexFirstMatch, hm]
      rw [updateDeploymentName, hj]
    · show updateDeploymentName prior
        ('h' :: 't' :: 't' :: 'p' :: 's' :: ':' :: '/' :: '/' :: (label ++ '.' :: rest)) =
        label
      have hm : tryMatchAt
          ('h' :: 't' :: 't' :: 'p' :: 's' :: ':' :: '/' :: '/' :: (label ++ '.' :: rest)) =
          some label := hmatch
      have hj : jsRegexFirstMatch
          ('h' :: 't' :: 't' :: 'p' :: 's' :: ':' :: '/' :: '/' :: (label ++ '.' :: rest)) =
          some label := by
        rw [jsRegexFirstMatch, hm]
      rw [updateDeploymentName, hj]
  · intro url p2 h
    rw [updateDeploymentName, h]

/-- Witness for the amended C9 at `https://fx.cloud` with prior label
`old`, plus the no-match fallback at a concrete unmatched URL. -/
theorem deployment_name_derivation_witness :
    updateDeploymentName ['o', 'l', 'd']
      ((if true then ['h', 't', 't', 'p', 's', ':', '/', '/']
        else ['h', 't', 't', 'p', ':', '/', '/']) ++ ['f', 'x'] ++ '.' ::
        ['c', 'l', 'o', 'u', 'd']) = ['f', 'x'] ∧
    (∀ url p2, jsRegexFirstMatch url = none → updateDeploymentName p2 url = p2) :=
  deployment_name_derivation true ['f', 'x'] ['c', 'l', 'o', 'u', 'd'] ['o', 'l', 'd']
    (by decide) (by decide)

end ConvexShell

namespace ConvexShell

/-- Claim C7.  When the external run command succeeds, the call returns
the JSON-parsed stdout if it parses, and otherwise the trimmed stdout
text; the outcome is chosen solely by parseability, and both are
successful (non-error) results. -/
theorem functionProxyCall_result (output : List Char) (v : JsonVal) :
    (jsJsonParse output = some v →
      functionProxyCall (.ok output) = .ok (.json v)) ∧
    (jsJsonParse output = none →
      functionProxyCall (.ok output) = .ok (.text (jsTrim output))) := by
  constructor
  · intro h
    simp [functionProxyCall, h]
  · intro h
    simp [functionProxyCall, h]

/-- Witness for C7: stdout `{"ok":true}` yields the parsed object with
field `ok` holding `true`; stdout `done` yields the string `done`. -/
theorem functionProxyCall_result_witness :
    functionProxyCall (.ok ['{', '"', 'o', 'k', '"', ':', 't', 'r', 'u', 'e', '}']) =
      .ok (.json (.obj [(['o', 'k'], .bool true)])) ∧
    functionProxyCall (.ok ['d', 'o', 'n', 'e']) = .ok (.text ['d', 'o', 'n', 'e']) :=
  ⟨(functionProxyCall_result ['{', '"', 'o', 'k', '"', ':', 't', 'r', 'u', 'e', '}']
      (.obj [(['o', 'k'], .bool true)])).1 rfl,
   (functionProxyCall_result ['d', 'o', 'n', 'e'] .null).2 rfl⟩

theorem cacheLookup_createProxy_self (c : ProxyCache) (q : List (List Char)) :
    cacheLookup (createProxy c q).2.entries q = some (createProxy c q).1 := by
  rw [createProxy]
  cases h : cacheLookup c.entries q with
  | some i => simpa using h
  | none => simp [cacheLookup]

theorem createProxy_stable (c : ProxyCache) (q : List (List Char)) :
    createProxy (createProxy c q).2 q = createProxy c q := by
  conv_lhs => rw [createProxy]
  rw [cacheLookup_createProxy_self]

theorem cacheLookup_createProxy_mono (c : ProxyCache) (q' q : List (List Char)) (i : Nat)
    (h : cacheLookup c.entries q = some i) :
    cacheLookup (createProxy c q').2.entries q = some i := by
  rw [createProxy]
  cases hl : cacheLookup c.entries q' with
  | some j => simpa using h
  | none =>
    by_cases hq : q' = q
    · subst hq
      rw [h] at hl
      exact absurd hl (by simp)
    · simpa [cacheLookup, hq] using h

theorem cacheLookup_navAux_mono :
    ∀ (rem : List (List Char)) (node : JVal) (cur : List (List Char)) (pr : Bool)
      (c : ProxyCache) (q : List (List Char)) (i : Nat),
      cacheLookup c.entries q = some i →
      cacheLookup ((navAux node cur pr rem c).2).entries q = some i := by
  intro rem
  induction rem with
  | nil => intro node cur pr c q i h; simpa [navAux] using h
  | cons k rem' ih =>
    intro node cur pr c q i h
    cases rem' with
    | nil =>
      cases hg : getChild node k with
      | none => simpa [navAux, hg] using h
      | some child =>
        cases child with
        | fn f props => simpa [navAux, hg] using h
        | obj es =>
          cases pr with
          | false => simpa [navAux, hg] using h
          | true =>
            simp only [navAux, hg]
            exact cacheLookup_createProxy_mono c (cur ++ [k]) q i h
    | cons k2 rest =>
      cases hg : getChild node k with
      | none => simpa [navAux, hg] using h
      | some child =>
        cases child with
        | fn f props =>
          simp only [navAux, hg]
          exact ih _ _ _ _ q i h
        | obj es =>
          cases pr with
          | false =>
            simp only [navAux, hg]
            exact ih _ _ _ _ q i h
          | true =>
            simp only [navAux, hg]
            exact ih _ _ _ _ q i
              (cacheLookup_createProxy_mono c (cur ++ [k]) q i h)

/-- Claim C6.  Navigating the same sub-path twice from the same tree root
with the same proxy cache returns the same reference and leaves the cache
unchanged: the memoized proxy wrapper is reused rather than rebuilt. -/
theorem navigatePath_stable (t : JVal) (p : List (List Char)) (c : ProxyCache) :
    navigatePath t p ((navigatePath t p c).2) = navigatePath t p c := by
  simp only [navigatePath]
  have main : ∀ (rem : List (List Char)) (node : JVal) (cur : List (List Char))
      (pr : Bool) (c0 : ProxyCache),
      navAux node cur pr rem ((navAux node cur pr rem c0).2) =
        navAux node cur pr rem c0 := by
    intro rem
    induction rem with
    | nil => intro node cur pr c0; rfl
    | cons k rem' ih =>
      intro node cur pr c0
      cases rem' with
      | nil =>
        cases hg : getChild node k with
        | none => simp [navAux, hg]
        | some child =>
          cases child with
          | fn f props => simp [navAux, hg]
          | obj es =>
            cases pr with
            | false => simp [navAux, hg]
            | true =>
              simp only [navAux, hg, if_true]
              rw [createProxy_stable]
      | cons k2 rest =>
        cases hg : getChild node k with
        | none => simp [navAux, hg]
        | some child =>
          cases child with
          | fn f props =>
            simp only [navAux, hg]
            exact ih _ _ _ _
          | obj es =>
            cases pr with
            | false =>
              simp only [navAux, hg]
              exact ih _ _ _ _
            | true =>
              simp only [navAux, hg, if_true]
              have hstep : createProxy ((navAux (JVal.obj es) (cur ++ [k]) true
                  (k2 :: rest) (createProxy c0 (cur ++ [k])).2).2) (cur ++ [k]) =
                  ((createProxy c0 (cur ++ [k])).1,
                   (navAux (JVal.obj es) (cur ++ [k]) true (k2 :: rest)
                     (createProxy c0 (cur ++ [k])).2).2) := by
                rw [createProxy]
                rw [cacheLookup_navAux_mono (k2 :: rest) (JVal.obj es) (cur ++ [k]) true
                  (createProxy c0 (cur ++ [k])).2 (cur ++ [k])
                  (createProxy c0 (cur ++ [k])).1
                  (cacheLookup_createProxy_self c0 (cur ++ [k]))]
              rw [hstep]
              exact ih _ _ _ _
  exact main p t [] true c

end ConvexShell
